import Mathlib

set_option allowUnsafeReducibility true in
attribute [semireducible] Rat.add Rat.mul Rat.inv Rat.sub Rat.div Rat.neg

/-!
Shallow embedding, over the exact rationals, of the three root-finding
routines of `src/Lab3.py`: `newton_raphson`, `secant_method` and
`false_position`.  Python floats are modelled by `ℚ`; the literal guard
constant `1e-12` becomes `guardEps = 1 / 10^12`, and the default
tolerance `1e-6` is passed explicitly as `1 / 1000000`.  The Python
`for i in range(max_iter)` loop becomes fuel recursion where the fuel is
the number of remaining loop iterations and `i` counts finished ones.
`false_position`'s sentinel return `None, None` is modelled by the pair
`(none, none)`.  Division on `ℚ` is total, so the `...E` variants
additionally model the places where the Python code could raise: they
return `none` exactly where CPython would raise `ZeroDivisionError`
(denominator exactly zero at a division site) or `NameError`
(`false_position` reaching `return c` with the loop body never run).
-/

/-- One row of the iteration history of `newton_raphson` or of
`secant_method` (Python dict keys `Iter`, `Method`, `x_curr`, `f(x)`,
`Error`; both methods record exactly these five keys). -/
structure IterRec where
  iter : ℕ
  method : String
  x_curr : ℚ
  fx : ℚ
  error : ℚ
  deriving DecidableEq

/-- One row of the iteration history of `false_position` (Python dict
keys `Iter`, `Method`, `a`, `b`, `root`, `f(x)`, `Error`). -/
structure FPRec where
  iter : ℕ
  method : String
  a : ℚ
  b : ℚ
  root : ℚ
  fx : ℚ
  error : ℚ
  deriving DecidableEq

/-- The `1e-12` near-zero-denominator guard of `newton_raphson`
(line 22) and `secant_method` (line 35). -/
def guardEps : ℚ := 1 / 1000000000000

/-- Loop of `newton_raphson` (Lab3.py lines 19-27).  The first `ℕ`
argument is the remaining fuel (`max_iter` minus finished iterations),
the second is `i`, the number of finished iterations; the `ℚ` argument
is `x_curr`.  Returns the final `x_curr` and the history built from the
current point on. -/
def newtonGo (func deriv : ℚ → ℚ) (tol : ℚ) : ℕ → ℕ → ℚ → ℚ × List IterRec
  | 0, _, x_curr => (x_curr, [])
  | fuel + 1, i, x_curr =>
    let f_val := func x_curr
    let f_prime := deriv x_curr
    if |f_prime| < guardEps then (x_curr, [])
    else
      let x_next := x_curr - f_val / f_prime
      let error := |x_next - x_curr|
      let r : IterRec := ⟨i + 1, "Newton", x_curr, f_val, error⟩
      if error < tol then (x_next, [r])
      else
        let rest := newtonGo func deriv tol fuel (i + 1) x_next
        (rest.1, r :: rest.2)

/-- Embedding of `newton_raphson(func, deriv, x0, tol=1e-6, max_iter=50)`
(Lab3.py lines 16-28); `tol` and `max_iter` are passed explicitly. -/
def newton_raphson (func deriv : ℚ → ℚ) (x0 tol : ℚ) (max_iter : ℕ) :
    ℚ × List IterRec :=
  newtonGo func deriv tol max_iter 0 x0

/-- Loop of `secant_method` (Lab3.py lines 33-40).  State is the pair
`(x_prev, x_curr)`. -/
def secantGo (func : ℚ → ℚ) (tol : ℚ) : ℕ → ℕ → ℚ → ℚ → ℚ × List IterRec
  | 0, _, _, x_curr => (x_curr, [])
  | fuel + 1, i, x_prev, x_curr =>
    let f_curr := func x_curr
    let f_prev := func x_prev
    if |f_curr - f_prev| < guardEps then (x_curr, [])
    else
      let x_next := x_curr - f_curr * ((x_curr - x_prev) / (f_curr - f_prev))
      let error := |x_next - x_curr|
      let r : IterRec := ⟨i + 1, "Secant", x_curr, f_curr, error⟩
      if error < tol then (x_next, [r])
      else
        let rest := secantGo func tol fuel (i + 1) x_curr x_next
        (rest.1, r :: rest.2)

/-- Embedding of `secant_method(func, x0, x1, tol=1e-6, max_iter=50)`
(Lab3.py lines 30-41). -/
def secant_method (func : ℚ → ℚ) (x0 x1 tol : ℚ) (max_iter : ℕ) :
    ℚ × List IterRec :=
  secantGo func tol max_iter 0 x0 x1

/-- Loop of `false_position` (Lab3.py lines 48-57).  State is the
bracket `(a, b)` plus `c_old`; on fuel exhaustion the Python loop falls
out and returns the last computed `c`, which at that point equals
`c_old` because line 57 (`c_old = c`) ran at the end of the last
iteration. -/
def falsePosGo (func : ℚ → ℚ) (tol : ℚ) : ℕ → ℕ → ℚ → ℚ → ℚ → ℚ × List FPRec
  | 0, _, _, _, c_old => (c_old, [])
  | fuel + 1, i, a, b, c_old =>
    let fa := func a
    let fb := func b
    let c := b - fb * ((b - a) / (fb - fa))
    let fc := func c
    let error := |c - c_old|
    let r : FPRec := ⟨i + 1, "FalsePos", a, b, c, fc, error⟩
    if error < tol then (c, [r])
    else if fa * fc < 0 then
      let rest := falsePosGo func tol fuel (i + 1) a c c
      (rest.1, r :: rest.2)
    else
      let rest := falsePosGo func tol fuel (i + 1) c b c
      (rest.1, r :: rest.2)

/-- Embedding of `false_position(func, a, b, tol=1e-6, max_iter=50)`
(Lab3.py lines 43-58).  The Python `return None, None` on
`func(a) * func(b) >= 0` is the pair `(none, none)`. -/
def false_position (func : ℚ → ℚ) (a b tol : ℚ) (max_iter : ℕ) :
    Option ℚ × Option (List FPRec) :=
  if 0 ≤ func a * func b then (none, none)
  else
    let res := falsePosGo func tol max_iter 0 a b a
    (some res.1, some res.2)

/-- Exception-aware mirror of `newtonGo`: after the `1e-12` guard has
passed, the division `f_val / f_prime` would raise `ZeroDivisionError`
in Python exactly when `f_prime = 0`; that case returns `none`. -/
def newtonGoE (func deriv : ℚ → ℚ) (tol : ℚ) :
    ℕ → ℕ → ℚ → Option (ℚ × List IterRec)
  | 0, _, x_curr => some (x_curr, [])
  | fuel + 1, i, x_curr =>
    let f_val := func x_curr
    let f_prime := deriv x_curr
    if |f_prime| < guardEps then some (x_curr, [])
    else if f_prime = 0 then none
    else
      let x_next := x_curr - f_val / f_prime
      let error := |x_next - x_curr|
      let r : IterRec := ⟨i + 1, "Newton", x_curr, f_val, error⟩
      if error < tol then some (x_next, [r])
      else
        match newtonGoE func deriv tol fuel (i + 1) x_next with
        | none => none
        | some rest => some (rest.1, r :: rest.2)

/-- Exception-aware mirror of `newton_raphson`; `none` models a raised
exception, `some` a normal return. -/
def newton_raphsonE (func deriv : ℚ → ℚ) (x0 tol : ℚ) (max_iter : ℕ) :
    Option (ℚ × List IterRec) :=
  newtonGoE func deriv tol max_iter 0 x0

/-- Exception-aware mirror of `secantGo`: the division by
`f_curr - f_prev` would raise exactly when that difference is zero. -/
def secantGoE (func : ℚ → ℚ) (tol : ℚ) :
    ℕ → ℕ → ℚ → ℚ → Option (ℚ × List IterRec)
  | 0, _, _, x_curr => some (x_curr, [])
  | fuel + 1, i, x_prev, x_curr =>
    let f_curr := func x_curr
    let f_prev := func x_prev
    if |f_curr - f_prev| < guardEps then some (x_curr, [])
    else if f_curr - f_prev = 0 then none
    else
      let x_next := x_curr - f_curr * ((x_curr - x_prev) / (f_curr - f_prev))
      let error := |x_next - x_curr|
      let r : IterRec := ⟨i + 1, "Secant", x_curr, f_curr, error⟩
      if error < tol then some (x_next, [r])
      else
        match secantGoE func tol fuel (i + 1) x_curr x_next with
        | none => none
        | some rest => some (rest.1, r :: rest.2)

/-- Exception-aware mirror of `secant_method`. -/
def secant_methodE (func : ℚ → ℚ) (x0 x1 tol : ℚ) (max_iter : ℕ) :
    Option (ℚ × List IterRec) :=
  secantGoE func tol max_iter 0 x0 x1

/-- Exception-aware mirror of `falsePosGo`: the division by `fb - fa`
(line 50) raises exactly when `fb - fa = 0`; reaching `return c` with
`i = 0` finished iterations means the local `c` was never bound, which
raises `NameError` in Python — both modelled by `none`. -/
def falsePosGoE (func : ℚ → ℚ) (tol : ℚ) :
    ℕ → ℕ → ℚ → ℚ → ℚ → Option (ℚ × List FPRec)
  | 0, i, _, _, c_old => if i = 0 then none else some (c_old, [])
  | fuel + 1, i, a, b, c_old =>
    let fa := func a
    let fb := func b
    if fb - fa = 0 then none
    else
      let c := b - fb * ((b - a) / (fb - fa))
      let fc := func c
      let error := |c - c_old|
      let r : FPRec := ⟨i + 1, "FalsePos", a, b, c, fc, error⟩
      if error < tol then some (c, [r])
      else if fa * fc < 0 then
        match falsePosGoE func tol fuel (i + 1) a c c with
        | none => none
        | some rest => some (rest.1, r :: rest.2)
      else
        match falsePosGoE func tol fuel (i + 1) c b c with
        | none => none
        | some rest => some (rest.1, r :: rest.2)

/-- Exception-aware mirror of `false_position`. -/
def false_positionE (func : ℚ → ℚ) (a b tol : ℚ) (max_iter : ℕ) :
    Option (Option ℚ × Option (List FPRec)) :=
  if 0 ≤ func a * func b then some (none, none)
  else
    match falsePosGoE func tol max_iter 0 a b a with
    | none => none
    | some res => some (some res.1, some res.2)

/-- The chord-intersection point computed at line 50 of Lab3.py. -/
def chordOf (func : ℚ → ℚ) (a b : ℚ) : ℚ :=
  b - func b * ((b - a) / (func b - func a))

/-- Step-by-step description of a `false_position` history relative to
the loop state `(a, b, c_old)` it was produced from: each record stores
the pre-update bracket, its `root` is the chord point of that bracket,
its `Error` is `|root - c_old|`, and the remaining records continue from
the post-update state (`b ← c` when `f(a)·f(c) < 0`, else `a ← c`, with
`c_old ← c` in both cases). -/
def goodTrace (func : ℚ → ℚ) : ℚ → ℚ → ℚ → List FPRec → Prop
  | _, _, _, [] => True
  | a, b, c_old, r :: rest =>
    r.a = a ∧ r.b = b ∧ r.root = chordOf func a b ∧ r.fx = func r.root ∧
      r.error = |r.root - c_old| ∧
      (if func a * func r.root < 0 then goodTrace func a r.root r.root rest
       else goodTrace func r.root b r.root rest)

/-- All records of `l` except possibly the last have error at least
`tol` (`err` extracts the error field). -/
def preFinalGe {p : Type} (err : p → ℚ) (tol : ℚ) (l : List p) : Prop :=
  ∀ k, ∀ hk : k + 1 < l.length, tol ≤ err (l.get ⟨k, Nat.lt_of_succ_lt hk⟩)

/-! Helper lemmas. -/

theorem newtonGo_length_le (func deriv : ℚ → ℚ) (tol : ℚ) (fuel : ℕ) :
    ∀ i x_curr, (newtonGo func deriv tol fuel i x_curr).2.length ≤ fuel := by
  induction fuel with
  | zero => intro i x; simp [newtonGo]
  | succ fuel ih =>
    intro i x
    simp only [newtonGo]
    split
    · simp
    · split
      · simp
      · have h := ih (i + 1) (x - func x / deriv x)
        simpa using Nat.succ_le_succ h

theorem secantGo_length_le (func : ℚ → ℚ) (tol : ℚ) (fuel : ℕ) :
    ∀ i x_prev x_curr, (secantGo func tol fuel i x_prev x_curr).2.length ≤ fuel := by
  induction fuel with
  | zero => intro i xp xc; simp [secantGo]
  | succ fuel ih =>
    intro i xp xc
    simp only [secantGo]
    split
    · simp
    · split
      · simp
      · have h := ih (i + 1) xc (xc - func xc * ((xc - xp) / (func xc - func xp)))
        simpa using Nat.succ_le_succ h

theorem falsePosGo_length_le (func : ℚ → ℚ) (tol : ℚ) (fuel : ℕ) :
    ∀ i a b c_old, (falsePosGo func tol fuel i a b c_old).2.length ≤ fuel := by
  induction fuel with
  | zero => intro i a b c_old; simp [falsePosGo]
  | succ fuel ih =>
    intro i a b c_old
    simp only [falsePosGo]
    split
    · simp
    · split
      · have h := ih (i + 1) a (b - func b * ((b - a) / (func b - func a)))
          (b - func b * ((b - a) / (func b - func a)))
        simpa using Nat.succ_le_succ h
      · have h := ih (i + 1) (b - func b * ((b - a) / (func b - func a))) b
          (b - func b * ((b - a) / (func b - func a)))
        simpa using Nat.succ_le_succ h

/-! Claim theorems. -/

/-- Claim C1: for every function `f` and reals `a`, `b` with
`f(a)*f(b) ≥ 0`, `false_position` returns the no-result sentinel for
both the estimate and the trace, performing no iteration. -/
theorem false_position_invalid_bracket (func : ℚ → ℚ) (a b tol : ℚ)
    (max_iter : ℕ) (h : 0 ≤ func a * func b) :
    false_position func a b tol max_iter = (none, none) := by
  simp [false_position, h]

/-- Witness for C1: a function that is positive at both bracket ends. -/
theorem false_position_invalid_bracket_witness :
    (0 ≤ (fun _ : ℚ => (1 : ℚ)) 0 * (fun _ : ℚ => (1 : ℚ)) 1) ∧
      false_position (fun _ : ℚ => (1 : ℚ)) 0 1 (1 / 1000000) 50 = (none, none) :=
  ⟨by norm_num,
    false_position_invalid_bracket (fun _ : ℚ => (1 : ℚ)) 0 1 (1 / 1000000) 50
      (by norm_num)⟩

/-- Claim C3: for every input (any function, guesses, bracket, positive
tolerance, `max_iter ≥ 1`), the trace returned by each of the three
methods has length at most `max_iter`. -/
theorem trace_length_le_max_iter (func deriv : ℚ → ℚ)
    (x0 x1 a b tol : ℚ) (max_iter : ℕ)
    (htol : 0 < tol) (hmi : 1 ≤ max_iter) :
    (newton_raphson func deriv x0 tol max_iter).2.length ≤ max_iter ∧
    (secant_method func x0 x1 tol max_iter).2.length ≤ max_iter ∧
    ((false_position func a b tol max_iter).2.getD []).length ≤ max_iter := by
  refine ⟨newtonGo_length_le func deriv tol max_iter 0 x0,
    secantGo_length_le func tol max_iter 0 x0 x1, ?_⟩
  by_cases h : 0 ≤ func a * func b
  · simp [false_position, h]
  · simpa [false_position, h] using
      falsePosGo_length_le func tol max_iter 0 a b a

/-- Witness for C3 at a concrete function, bracket and tolerance. -/
theorem trace_length_le_max_iter_witness :
    (0 < (1 / 1000000 : ℚ)) ∧ 1 ≤ 50 ∧
    (newton_raphson (fun x => x - 1) (fun _ => 1) 0 (1 / 1000000) 50).2.length ≤ 50 ∧
    (secant_method (fun x => x - 1) 0 2 (1 / 1000000) 50).2.length ≤ 50 ∧
    ((false_position (fun x => x - 1) 0 2 (1 / 1000000) 50).2.getD []).length ≤ 50 := by
  refine ⟨by norm_num, by norm_num, ?_⟩
  have h := trace_length_le_max_iter (fun x => x - 1) (fun _ => 1) 0 2 0 2
    (1 / 1000000) 50 (by norm_num) (by norm_num)
  exact ⟨h.1, h.2.1, h.2.2⟩

/-- Claim C6: in `newton_raphson`, whenever `|f'(x_curr)| < 1e-12` at
the current step, the loop stops before the division and returns the
current `x_curr` with no further records (first conjunct, about the
loop from any state on); in particular if the derivative is singular at
the very first step the estimate is `x0` and the trace is empty
(second conjunct). -/
theorem newton_singular_derivative :
    (∀ (func deriv : ℚ → ℚ) (tol : ℚ) (fuel i : ℕ) (x_curr : ℚ),
      |deriv x_curr| < guardEps →
      newtonGo func deriv tol fuel i x_curr = (x_curr, [])) ∧
    (∀ (func deriv : ℚ → ℚ) (x0 tol : ℚ) (max_iter : ℕ),
      |deriv x0| < guardEps →
      newton_raphson func deriv x0 tol max_iter = (x0, [])) := by
  constructor
  · intro func deriv tol fuel i x h
    cases fuel with
    | zero => simp [newtonGo]
    | succ fuel => simp [newtonGo, h]
  · intro func deriv x0 tol max_iter h
    cases max_iter with
    | zero => simp [newton_raphson, newtonGo]
    | succ max_iter => simp [newton_raphson, newtonGo, h]

/-- Witness for C6: an identically-zero derivative is singular at the
first step, so the estimate stays `3` and the trace is empty. -/
theorem newton_singular_derivative_witness :
    (|(fun _ : ℚ => (0 : ℚ)) 3| < guardEps) ∧
      newton_raphson (fun x : ℚ => x) (fun _ : ℚ => (0 : ℚ)) 3 (1 / 1000000) 50 = (3, []) :=
  ⟨by norm_num [guardEps],
    newton_singular_derivative.2 (fun x : ℚ => x) (fun _ : ℚ => (0 : ℚ)) 3
      (1 / 1000000) 50 (by norm_num [guardEps])⟩

/-- Claim C10: the sentinel pair `(none, none)` is produced by
`false_position` exactly on an invalid bracket (first conjunct); the
other two methods return a plain pair `ℚ × List IterRec` by type, never
a sentinel; and `secant_method` called with equal initial estimates
trips the degenerate-slope guard on the first step and returns the
second estimate with an empty trace (second conjunct). -/
theorem sentinel_only_invalid_bracket :
    (∀ (func : ℚ → ℚ) (a b tol : ℚ) (max_iter : ℕ),
      false_position func a b tol max_iter = (none, none) ↔ 0 ≤ func a * func b) ∧
    (∀ (func : ℚ → ℚ) (x tol : ℚ) (max_iter : ℕ),
      secant_method func x x tol max_iter = (x, [])) := by
  constructor
  · intro func a b tol max_iter
    by_cases h : 0 ≤ func a * func b
    · simp [false_position, h]
    · simp [false_position, h]
  · intro func x tol max_iter
    cases max_iter with
    | zero => simp [secant_method, secantGo]
    | succ max_iter =>
      have h : |func x - func x| < guardEps := by norm_num [guardEps]
      simp only [secant_method, secantGo]
      rw [if_pos h]

/-- Witness for C10 at concrete inputs. -/
theorem sentinel_only_invalid_bracket_witness :
    (false_position (fun x : ℚ => x) 1 2 (1 / 1000000) 50 = (none, none)) ∧
      secant_method (fun x : ℚ => x * x) 2 2 (1 / 1000000) 50 = (2, []) :=
  ⟨(sentinel_only_invalid_bracket.1 (fun x : ℚ => x) 1 2 (1 / 1000000) 50).2
      (by norm_num),
    sentinel_only_invalid_bracket.2 (fun x : ℚ => x * x) 2 (1 / 1000000) 50⟩

/-- The chord point degenerates to `a` when `func a = 0` (and the other
endpoint value is nonzero). -/
theorem chordOf_eq_left (func : ℚ → ℚ) (a b : ℚ) (ha : func a = 0)
    (hb : func b ≠ 0) : chordOf func a b = a := by
  unfold chordOf
  rw [ha, sub_zero]
  field_simp

/-- Weak sign step: if the bracket values satisfy `fa * fb ≤ 0` with
`fb ≠ 0` and `fa ≠ 0`, and the chord value `fc` satisfies
`0 ≤ fa * fc`, then `fc * fb ≤ 0`. -/
theorem sign_step (fa fb fc : ℚ) (hb : fb ≠ 0) (hab : fa * fb ≤ 0)
    (h0 : 0 ≤ fa * fc) (hfa : fa ≠ 0) : fc * fb ≤ 0 := by
  have hab' : fa * fb < 0 := lt_of_le_of_ne hab (mul_ne_zero hfa hb)
  rcases mul_neg_iff.mp hab' with ⟨hfa1, hfb1⟩ | ⟨hfa1, hfb1⟩
  · have h1 : 0 ≤ fc := by nlinarith
    nlinarith
  · have h1 : fc ≤ 0 := by nlinarith
    nlinarith

/-- Strict sign step: with a strict sign change `fa * fb < 0`,
`0 ≤ fa * fc` and `fc ≠ 0`, the updated bracket values satisfy
`fc * fb < 0`. -/
theorem sign_step_strict (fa fb fc : ℚ) (hab : fa * fb < 0)
    (h0 : 0 ≤ fa * fc) (hfc : fc ≠ 0) : fc * fb < 0 := by
  rcases mul_neg_iff.mp hab with ⟨hfa1, hfb1⟩ | ⟨hfa1, hfb1⟩
  · have h1 : 0 ≤ fc := by nlinarith
    exact mul_neg_of_pos_of_neg (lt_of_le_of_ne h1 (Ne.symm hfc)) hfb1
  · have h1 : fc ≤ 0 := by nlinarith
    exact mul_neg_of_neg_of_pos (lt_of_le_of_ne h1 hfc) hfb1

/-- Every record of the `false_position` loop carries a bracket with
`func r.a * func r.b ≤ 0` and `func r.b ≠ 0`, provided the loop is
started in such a state. -/
theorem fp_trace_weak_inv (func : ℚ → ℚ) (tol : ℚ) (fuel : ℕ) :
    ∀ i a b c_old, func b ≠ 0 → func a * func b ≤ 0 →
      ∀ r ∈ (falsePosGo func tol fuel i a b c_old).2,
        func r.a * func r.b ≤ 0 ∧ func r.b ≠ 0 := by
  induction fuel with
  | zero => intro i a b c_old hb hab r hr; simp [falsePosGo] at hr
  | succ fuel ih =>
    intro i a b c_old hb hab r hr
    simp only [falsePosGo] at hr
    by_cases herr : |b - func b * ((b - a) / (func b - func a)) - c_old| < tol
    · rw [if_pos herr] at hr
      simp only [List.mem_singleton] at hr
      subst hr
      exact ⟨hab, hb⟩
    · rw [if_neg herr] at hr
      by_cases hc : func a * func (b - func b * ((b - a) / (func b - func a))) < 0
      · rw [if_pos hc] at hr
        simp only [List.mem_cons] at hr
        rcases hr with rfl | hr
        · exact ⟨hab, hb⟩
        · have hcne : func (b - func b * ((b - a) / (func b - func a))) ≠ 0 := by
            intro h0
            rw [h0, mul_zero] at hc
            exact lt_irrefl 0 hc
          exact ih (i + 1) a _ _ hcne hc.le r hr
      · rw [if_neg hc] at hr
        simp only [List.mem_cons] at hr
        rcases hr with rfl | hr
        · exact ⟨hab, hb⟩
        · push_neg at hc
          have hnew : func (b - func b * ((b - a) / (func b - func a))) * func b ≤ 0 := by
            by_cases hfa : func a = 0
            · have hca : b - func b * ((b - a) / (func b - func a)) = a :=
                chordOf_eq_left func a b hfa hb
              rw [hca, hfa, zero_mul]
            · exact sign_step (func a) (func b) _ hb hab hc hfa
          exact ih (i + 1) _ b _ hb hnew r hr

/-- When no iterate ever hits an exact root (`func r.root ≠ 0` for all
records), the strict invariant `func r.a * func r.b < 0` holds at every
record of the `false_position` loop. -/
theorem fp_trace_strict_inv (func : ℚ → ℚ) (tol : ℚ) (fuel : ℕ) :
    ∀ i a b c_old, func a * func b < 0 →
      (∀ r ∈ (falsePosGo func tol fuel i a b c_old).2, func r.root ≠ 0) →
      ∀ r ∈ (falsePosGo func tol fuel i a b c_old).2,
        func r.a * func r.b < 0 := by
  induction fuel with
  | zero => intro i a b c_old hab hroot r hr; simp [falsePosGo] at hr
  | succ fuel ih =>
    intro i a b c_old hab hroot r hr
    simp only [falsePosGo] at hr hroot
    by_cases herr : |b - func b * ((b - a) / (func b - func a)) - c_old| < tol
    · rw [if_pos herr] at hr
      simp only [List.mem_singleton] at hr
      subst hr
      exact hab
    · rw [if_neg herr] at hr hroot
      by_cases hc : func a * func (b - func b * ((b - a) / (func b - func a))) < 0
      · rw [if_pos hc] at hr hroot
        simp only [List.mem_cons] at hr
        rcases hr with rfl | hr
        · exact hab
        · refine ih (i + 1) a _ _ hc ?_ r hr
          intro r' hr'
          exact hroot r' (List.mem_cons_of_mem _ hr')
      · rw [if_neg hc] at hr hroot
        simp only [List.mem_cons] at hr
        rcases hr with rfl | hr
        · exact hab
        · push_neg at hc
          have hfc : func (b - func b * ((b - a) / (func b - func a))) ≠ 0 := by
            have := hroot ⟨i + 1, "FalsePos", a, b,
              b - func b * ((b - a) / (func b - func a)),
              func (b - func b * ((b - a) / (func b - func a))),
              |b - func b * ((b - a) / (func b - func a)) - c_old|⟩
              (by simp)
            exact this
          have hnew : func (b - func b * ((b - a) / (func b - func a))) * func b < 0 :=
            sign_step_strict (func a) (func b) _ hab hc hfc
          refine ih (i + 1) _ b _ hnew ?_ r hr
          intro r' hr'
          exact hroot r' (List.mem_cons_of_mem _ hr')

/-- Claim C2 as stated is false on the code: for `f(x) = x` on the
valid bracket `[-1, 1]` the first chord point is the exact root `0`,
`f(a)·f(c) = 0` sends the update through the else branch (`a ← c`), and
the bracket recorded at the next iteration has `f(a)·f(b) = 0`, not
`< 0`. -/
theorem false_position_bracket_cex :
    ¬ (∀ r ∈ ((false_position (fun x : ℚ => x) (-1) 1 (1 / 1000000) 50).2.getD []),
        (fun x : ℚ => x) r.a * (fun x : ℚ => x) r.b < 0) := by decide

/-- Claim C2 (amended): with a valid initial bracket, the weak
invariant `func r.a * func r.b ≤ 0` holds at the bracket recorded by
every iteration (hence before and after every update), and the strict
invariant `func r.a * func r.b < 0` holds whenever no chord point hits
an exact root — strictness can only be lost by an else-branch update
with `func(a)·func(c) = 0`, which installs `func a = 0`. -/
theorem false_position_bracket_invariant (func : ℚ → ℚ) (a b tol : ℚ)
    (max_iter : ℕ) (hab : func a * func b < 0) :
    (∀ r ∈ ((false_position func a b tol max_iter).2.getD []),
        func r.a * func r.b ≤ 0) ∧
    ((∀ r ∈ ((false_position func a b tol max_iter).2.getD []),
        func r.root ≠ 0) →
      ∀ r ∈ ((false_position func a b tol max_iter).2.getD []),
        func r.a * func r.b < 0) := by
  have hnb : ¬ 0 ≤ func a * func b := not_le.mpr hab
  have hb : func b ≠ 0 := by
    intro h
    rw [h, mul_zero] at hab
    exact lt_irrefl 0 hab
  have htr : (false_position func a b tol max_iter).2.getD [] =
      (falsePosGo func tol max_iter 0 a b a).2 := by
    simp [false_position, hnb]
  rw [htr]
  constructor
  · intro r hr
    exact (fp_trace_weak_inv func tol max_iter 0 a b a hb hab.le r hr).1
  · intro hroot r hr
    exact fp_trace_strict_inv func tol max_iter 0 a b a hab hroot r hr

/-- Witness for C2 (amended) on `f(x) = x - 1/2` over `[0, 1]`: the
hypothesis `f(0)·f(1) < 0` holds and the weak invariant holds at the
first recorded bracket. -/
theorem false_position_bracket_invariant_witness :
    ((fun x : ℚ => x - 1/2) 0 * (fun x : ℚ => x - 1/2) 1 < 0) ∧
      (fun x : ℚ => x - 1/2) (⟨1, "FalsePos", 0, 1, 1/2, 0, 1/2⟩ : FPRec).a *
        (fun x : ℚ => x - 1/2) (⟨1, "FalsePos", 0, 1, 1/2, 0, 1/2⟩ : FPRec).b ≤ 0 :=
  ⟨by norm_num,
    (false_position_bracket_invariant (fun x : ℚ => x - 1/2) 0 1 (1 / 1000000) 50
        (by norm_num)).1
      ⟨1, "FalsePos", 0, 1, 1/2, 0, 1/2⟩ (by decide)⟩

/-- A singleton list satisfies `preFinalGe` vacuously. -/
theorem preFinalGe_singleton {p : Type} (err : p → ℚ) (tol : ℚ) (r : p) :
    preFinalGe err tol [r] := by
  intro k hk
  simp at hk

/-- The predicate `preFinalGe` extends along `::` when the head's error
is at least `tol`. -/
theorem preFinalGe_cons {p : Type} (err : p → ℚ) (tol : ℚ) (r : p)
    (l : List p) (h1 : tol ≤ err r) (h2 : preFinalGe err tol l) :
    preFinalGe err tol (r :: l) := by
  intro k hk
  cases k with
  | zero => exact h1
  | succ k =>
    exact h2 k (Nat.lt_of_succ_lt_succ (by simpa using hk))

/-- In the Newton loop, every record other than the final one was
recorded with `tol ≤ Error` (otherwise the loop would have broken
there). -/
theorem newtonGo_pre_final_error (func deriv : ℚ → ℚ) (tol : ℚ) (fuel : ℕ) :
    ∀ i x_curr,
      preFinalGe (fun r : IterRec => r.error) tol
        (newtonGo func deriv tol fuel i x_curr).2 := by
  induction fuel with
  | zero => intro i x k hk; simp [newtonGo] at hk
  | succ fuel ih =>
    intro i x
    simp only [newtonGo]
    by_cases hg : |deriv x| < guardEps
    · rw [if_pos hg]
      intro k hk
      simp at hk
    · rw [if_neg hg]
      by_cases he : |x - func x / deriv x - x| < tol
      · rw [if_pos he]
        exact preFinalGe_singleton _ tol _
      · rw [if_neg he]
        exact preFinalGe_cons _ tol _ _ (not_lt.mp he)
          (ih (i + 1) (x - func x / deriv x))

/-- In the secant loop, every record other than the final one was
recorded with `tol ≤ Error`. -/
theorem secantGo_pre_final_error (func : ℚ → ℚ) (tol : ℚ) (fuel : ℕ) :
    ∀ i x_prev x_curr,
      preFinalGe (fun r : IterRec => r.error) tol
        (secantGo func tol fuel i x_prev x_curr).2 := by
  induction fuel with
  | zero => intro i xp xc k hk; simp [secantGo] at hk
  | succ fuel ih =>
    intro i xp xc
    simp only [secantGo]
    by_cases hg : |func xc - func xp| < guardEps
    · rw [if_pos hg]
      intro k hk
      simp at hk
    · rw [if_neg hg]
      by_cases he : |xc - func xc * ((xc - xp) / (func xc - func xp)) - xc| < tol
      · rw [if_pos he]
        exact preFinalGe_singleton _ tol _
      · rw [if_neg he]
        exact preFinalGe_cons _ tol _ _ (not_lt.mp he)
          (ih (i + 1) xc (xc - func xc * ((xc - xp) / (func xc - func xp))))

/-- In the false-position loop, every record other than the final one
was recorded with `tol ≤ Error`. -/
theorem falsePosGo_pre_final_error (func : ℚ → ℚ) (tol : ℚ) (fuel : ℕ) :
    ∀ i a b c_old,
      preFinalGe (fun r : FPRec => r.error) tol
        (falsePosGo func tol fuel i a b c_old).2 := by
  induction fuel with
  | zero => intro i a b c_old k hk; simp [falsePosGo] at hk
  | succ fuel ih =>
    intro i a b c_old
    simp only [falsePosGo]
    by_cases he : |b - func b * ((b - a) / (func b - func a)) - c_old| < tol
    · rw [if_pos he]
      exact preFinalGe_singleton _ tol _
    · rw [if_neg he]
      by_cases hc : func a * func (b - func b * ((b - a) / (func b - func a))) < 0
      · rw [if_pos hc]
        exact preFinalGe_cons _ tol _ _ (not_lt.mp he)
          (ih (i + 1) a (b - func b * ((b - a) / (func b - func a)))
            (b - func b * ((b - a) / (func b - func a))))
      · rw [if_neg hc]
        exact preFinalGe_cons _ tol _ _ (not_lt.mp he)
          (ih (i + 1) (b - func b * ((b - a) / (func b - func a))) b
            (b - func b * ((b - a) / (func b - func a))))

/-- Claim C4: for each method, a record with `Error < tol` can only be
the last one — the iteration stops at the first such record, so its
1-based index (`k + 1` for 0-based `k`) equals the trace length. -/
theorem stops_at_first_convergent_record :
    (∀ (func deriv : ℚ → ℚ) (x0 tol : ℚ) (max_iter k : ℕ)
      (hk : k < (newton_raphson func deriv x0 tol max_iter).2.length),
      ((newton_raphson func deriv x0 tol max_iter).2.get ⟨k, hk⟩).error < tol →
      k + 1 = (newton_raphson func deriv x0 tol max_iter).2.length) ∧
    (∀ (func : ℚ → ℚ) (x0 x1 tol : ℚ) (max_iter k : ℕ)
      (hk : k < (secant_method func x0 x1 tol max_iter).2.length),
      ((secant_method func x0 x1 tol max_iter).2.get ⟨k, hk⟩).error < tol →
      k + 1 = (secant_method func x0 x1 tol max_iter).2.length) ∧
    (∀ (func : ℚ → ℚ) (a b tol : ℚ) (max_iter k : ℕ)
      (hk : k < ((false_position func a b tol max_iter).2.getD []).length),
      (((false_position func a b tol max_iter).2.getD []).get ⟨k, hk⟩).error < tol →
      k + 1 = ((false_position func a b tol max_iter).2.getD []).length) := by
  refine ⟨?_, ?_, ?_⟩
  · intro func deriv x0 tol max_iter k hk herr
    by_contra hne
    have hlt : k + 1 < (newton_raphson func deriv x0 tol max_iter).2.length :=
      Nat.lt_of_le_of_ne (Nat.succ_le_of_lt hk) hne
    exact absurd herr
      (not_lt.mpr (newtonGo_pre_final_error func deriv tol max_iter 0 x0 k hlt))
  · intro func x0 x1 tol max_iter k hk herr
    by_contra hne
    have hlt : k + 1 < (secant_method func x0 x1 tol max_iter).2.length :=
      Nat.lt_of_le_of_ne (Nat.succ_le_of_lt hk) hne
    exact absurd herr
      (not_lt.mpr (secantGo_pre_final_error func tol max_iter 0 x0 x1 k hlt))
  · intro func a b tol max_iter k
    by_cases h : 0 ≤ func a * func b
    · intro hk herr
      exact absurd hk (by simp [false_position, h])
    · have htr : (false_position func a b tol max_iter).2.getD [] =
          (falsePosGo func tol max_iter 0 a b a).2 := by
        simp [false_position, h]
      rw [htr]
      intro hk herr
      by_contra hne
      have hlt : k + 1 < (falsePosGo func tol max_iter 0 a b a).2.length :=
        Nat.lt_of_le_of_ne (Nat.succ_le_of_lt hk) hne
      exact absurd herr
        (not_lt.mpr (falsePosGo_pre_final_error func tol max_iter 0 a b a k hlt))

/-- Witness for C4: Newton on `f(x) = x - 1` from `x0 = 0` converges at
the second step (`Error = 0 < tol`), and indeed `1 + 1` equals the
trace length. -/
theorem stops_at_first_convergent_record_witness :
    1 + 1 = (newton_raphson (fun x : ℚ => x - 1) (fun _ : ℚ => (1 : ℚ)) 0
      (1 / 1000000) 50).2.length :=
  stops_at_first_convergent_record.1 (fun x : ℚ => x - 1) (fun _ : ℚ => (1 : ℚ))
    0 (1 / 1000000) 50 1 (by decide) (by decide)

/-- Claim C7: in `secant_method`, a step with
`|f(x_curr) − f(x_prev)| < 1e-12` stops immediately, returning the
current `x_curr` and no further records (first conjunct); otherwise the
next iterate is `x_curr − f(x_curr)·(x_curr − x_prev)/(f(x_curr) −
f(x_prev))`, the step is recorded with the pre-update `x_curr`, and the
window shifts to `(x_curr, x_next)` for the rest of the loop (second
conjunct). -/
theorem secant_step_semantics :
    (∀ (func : ℚ → ℚ) (tol : ℚ) (fuel i : ℕ) (x_prev x_curr : ℚ),
      |func x_curr - func x_prev| < guardEps →
      secantGo func tol (fuel + 1) i x_prev x_curr = (x_curr, [])) ∧
    (∀ (func : ℚ → ℚ) (tol : ℚ) (fuel i : ℕ) (x_prev x_curr x_next : ℚ),
      ¬ |func x_curr - func x_prev| < guardEps →
      x_next = x_curr - func x_curr * ((x_curr - x_prev) / (func x_curr - func x_prev)) →
      secantGo func tol (fuel + 1) i x_prev x_curr =
        (if |x_next - x_curr| < tol then
          (x_next, [⟨i + 1, "Secant", x_curr, func x_curr, |x_next - x_curr|⟩])
        else
          ((secantGo func tol fuel (i + 1) x_curr x_next).1,
            (⟨i + 1, "Secant", x_curr, func x_curr, |x_next - x_curr|⟩ : IterRec) ::
              (secantGo func tol fuel (i + 1) x_curr x_next).2))) := by
  constructor
  · intro func tol fuel i xp xc h
    simp only [secantGo]
    rw [if_pos h]
  · intro func tol fuel i xp xc xn hg hxn
    subst hxn
    simp only [secantGo]
    rw [if_neg hg]

/-- Witness for C7: a constant function makes the degenerate-slope
guard trip on the first step. -/
theorem secant_step_semantics_witness :
    (|(fun _ : ℚ => (1 : ℚ)) 1 - (fun _ : ℚ => (1 : ℚ)) 0| < guardEps) ∧
      secantGo (fun _ : ℚ => (1 : ℚ)) (1 / 1000000) (49 + 1) 0 0 1 = (1, []) :=
  ⟨by norm_num [guardEps],
    secant_step_semantics.1 (fun _ : ℚ => (1 : ℚ)) (1 / 1000000) 49 0 0 1
      (by norm_num [guardEps])⟩

/-- The trace produced by the false-position loop satisfies
`goodTrace` relative to the loop's starting state. -/
theorem falsePosGo_goodTrace (func : ℚ → ℚ) (tol : ℚ) (fuel : ℕ) :
    ∀ i a b c_old,
      goodTrace func a b c_old (falsePosGo func tol fuel i a b c_old).2 := by
  induction fuel with
  | zero => intro i a b c_old; simp [falsePosGo, goodTrace]
  | succ fuel ih =>
    intro i a b c_old
    simp only [falsePosGo]
    by_cases he : |b - func b * ((b - a) / (func b - func a)) - c_old| < tol
    · rw [if_pos he]
      refine ⟨rfl, rfl, rfl, rfl, rfl, ?_⟩
      split
      · trivial
      · trivial
    · rw [if_neg he]
      by_cases hc : func a * func (b - func b * ((b - a) / (func b - func a))) < 0
      · rw [if_pos hc]
        refine ⟨rfl, rfl, rfl, rfl, rfl, ?_⟩
        rw [if_pos hc]
        exact ih (i + 1) a (b - func b * ((b - a) / (func b - func a)))
          (b - func b * ((b - a) / (func b - func a)))
      · rw [if_neg hc]
        refine ⟨rfl, rfl, rfl, rfl, rfl, ?_⟩
        rw [if_neg hc]
        exact ih (i + 1) (b - func b * ((b - a) / (func b - func a))) b
          (b - func b * ((b - a) / (func b - func a)))

/-- From `goodTrace`: every record's `root` is the chord point of its
own recorded bracket and its `f(x)` field is `func root`. -/
theorem goodTrace_mem_chord (func : ℚ → ℚ) :
    ∀ (t : List FPRec) a b c_old, goodTrace func a b c_old t →
      ∀ r ∈ t, r.root = chordOf func r.a r.b ∧ r.fx = func r.root := by
  intro t
  induction t with
  | nil => intro a b c_old hg r hr; simp at hr
  | cons r0 rest ih =>
    intro a b c_old hg r hr
    simp only [goodTrace] at hg
    obtain ⟨ha, hb, hroot, hfx, herr, hrest⟩ := hg
    rcases List.mem_cons.mp hr with rfl | hr
    · refine ⟨?_, hfx⟩
      rw [ha, hb, hroot]
    · by_cases hc : func a * func r0.root < 0
      · rw [if_pos hc] at hrest
        exact ih a r0.root r0.root hrest r hr
      · rw [if_neg hc] at hrest
        exact ih r0.root b r0.root hrest r hr

/-- From `goodTrace`: the head record carries the starting bracket and
its error is measured against the starting `c_old`. -/
theorem goodTrace_head_props (func : ℚ → ℚ) (a b c_old : ℚ) (r0 : FPRec)
    (rest : List FPRec) (hg : goodTrace func a b c_old (r0 :: rest)) :
    r0.a = a ∧ r0.b = b ∧ r0.error = |r0.root - c_old| := by
  simp only [goodTrace] at hg
  exact ⟨hg.1, hg.2.1, hg.2.2.2.2.1⟩

/-- From `goodTrace`: each non-head record's error is measured against
the previous record's root, and its bracket is the previous record's
bracket updated by the sign test on the previous chord point. -/
theorem goodTrace_consecutive (func : ℚ → ℚ) :
    ∀ (t : List FPRec) a b c_old, goodTrace func a b c_old t →
      ∀ k, ∀ hk : k + 1 < t.length,
        (t.get ⟨k + 1, hk⟩).error =
          |(t.get ⟨k + 1, hk⟩).root - (t.get ⟨k, Nat.lt_of_succ_lt hk⟩).root| ∧
        (if func (t.get ⟨k, Nat.lt_of_succ_lt hk⟩).a *
            func (t.get ⟨k, Nat.lt_of_succ_lt hk⟩).root < 0 then
          (t.get ⟨k + 1, hk⟩).a = (t.get ⟨k, Nat.lt_of_succ_lt hk⟩).a ∧
          (t.get ⟨k + 1, hk⟩).b = (t.get ⟨k, Nat.lt_of_succ_lt hk⟩).root
        else
          (t.get ⟨k + 1, hk⟩).a = (t.get ⟨k, Nat.lt_of_succ_lt hk⟩).root ∧
          (t.get ⟨k + 1, hk⟩).b = (t.get ⟨k, Nat.lt_of_succ_lt hk⟩).b) := by
  intro t
  induction t with
  | nil => intro a b c_old hg k hk; simp at hk
  | cons r0 rest ih =>
    intro a b c_old hg k hk
    simp only [goodTrace] at hg
    obtain ⟨ha, hb, hroot, hfx, herr, hrest⟩ := hg
    cases k with
    | zero =>
      cases rest with
      | nil => simp at hk
      | cons r1 rest' =>
        show r1.error = |r1.root - r0.root| ∧
          (if func r0.a * func r0.root < 0 then
            r1.a = r0.a ∧ r1.b = r0.root
          else
            r1.a = r0.root ∧ r1.b = r0.b)
        rw [ha, hb]
        by_cases hc : func a * func r0.root < 0
        · rw [if_pos hc] at hrest ⊢
          simp only [goodTrace] at hrest
          obtain ⟨ha1, hb1, _, _, herr1, _⟩ := hrest
          exact ⟨herr1, ha1, hb1⟩
        · rw [if_neg hc] at hrest ⊢
          simp only [goodTrace] at hrest
          obtain ⟨ha1, hb1, _, _, herr1, _⟩ := hrest
          exact ⟨herr1, ha1, hb1⟩
    | succ k =>
      by_cases hc : func a * func r0.root < 0
      · rw [if_pos hc] at hrest
        exact ih a r0.root r0.root hrest k (Nat.lt_of_succ_lt_succ (by simpa using hk))
      · rw [if_neg hc] at hrest
        exact ih r0.root b r0.root hrest k (Nat.lt_of_succ_lt_succ (by simpa using hk))

/-- Claim C8: with a valid initial bracket, every recorded step of
`false_position` has `root = b − f(b)·(b − a)/(f(b) − f(a))` computed
from its own recorded bracket and `f(x) = func root` (first conjunct);
the first record carries the initial bracket and its `Error` is
`|root − a|`, i.e. `c_old` starts at `a` (second conjunct); every later
record's `Error` is `|root − previous root|` and its bracket is the
previous record's bracket updated after the convergence test — so each
record, the final one included, shows the bracket before its own
update (third conjunct). -/
theorem false_position_step_semantics (func : ℚ → ℚ) (a b tol : ℚ)
    (max_iter : ℕ) (hab : func a * func b < 0) :
    ∀ t, (false_position func a b tol max_iter).2 = some t →
      (∀ r ∈ t, r.root = r.b - func r.b * ((r.b - r.a) / (func r.b - func r.a)) ∧
        r.fx = func r.root) ∧
      (∀ h0 : 0 < t.length,
        (t.get ⟨0, h0⟩).a = a ∧ (t.get ⟨0, h0⟩).b = b ∧
        (t.get ⟨0, h0⟩).error = |(t.get ⟨0, h0⟩).root - a|) ∧
      (∀ k, ∀ hk : k + 1 < t.length,
        (t.get ⟨k + 1, hk⟩).error =
          |(t.get ⟨k + 1, hk⟩).root - (t.get ⟨k, Nat.lt_of_succ_lt hk⟩).root| ∧
        (if func (t.get ⟨k, Nat.lt_of_succ_lt hk⟩).a *
            func (t.get ⟨k, Nat.lt_of_succ_lt hk⟩).root < 0 then
          (t.get ⟨k + 1, hk⟩).a = (t.get ⟨k, Nat.lt_of_succ_lt hk⟩).a ∧
          (t.get ⟨k + 1, hk⟩).b = (t.get ⟨k, Nat.lt_of_succ_lt hk⟩).root
        else
          (t.get ⟨k + 1, hk⟩).a = (t.get ⟨k, Nat.lt_of_succ_lt hk⟩).root ∧
          (t.get ⟨k + 1, hk⟩).b = (t.get ⟨k, Nat.lt_of_succ_lt hk⟩).b)) := by
  intro t ht
  have hnb : ¬ 0 ≤ func a * func b := not_le.mpr hab
  have ht' : t = (falsePosGo func tol max_iter 0 a b a).2 := by
    simp only [false_position, if_neg hnb, Option.some.injEq] at ht
    exact ht.symm
  have hg : goodTrace func a b a t := by
    rw [ht']
    exact falsePosGo_goodTrace func tol max_iter 0 a b a
  refine ⟨?_, ?_, ?_⟩
  · intro r hr
    exact goodTrace_mem_chord func t a b a hg r hr
  · intro h0
    cases t with
    | nil => simp at h0
    | cons r0 rest => exact goodTrace_head_props func a b a r0 rest hg
  · intro k hk
    exact goodTrace_consecutive func t a b a hg k hk

/-- Witness for C8 on `f(x) = x - 1/2` over `[0, 1]`: the first record
of the concrete two-step trace has its root equal to the chord point of
its own bracket and its `f(x)` field equal to `f(root)`. -/
theorem false_position_step_semantics_witness :
    ((fun x : ℚ => x - 1/2) 0 * (fun x : ℚ => x - 1/2) 1 < 0) ∧
      ((⟨1, "FalsePos", 0, 1, 1/2, 0, 1/2⟩ : FPRec).root =
        (⟨1, "FalsePos", 0, 1, 1/2, 0, 1/2⟩ : FPRec).b -
          (fun x : ℚ => x - 1/2) (⟨1, "FalsePos", 0, 1, 1/2, 0, 1/2⟩ : FPRec).b *
            (((⟨1, "FalsePos", 0, 1, 1/2, 0, 1/2⟩ : FPRec).b -
                (⟨1, "FalsePos", 0, 1, 1/2, 0, 1/2⟩ : FPRec).a) /
              ((fun x : ℚ => x - 1/2) (⟨1, "FalsePos", 0, 1, 1/2, 0, 1/2⟩ : FPRec).b -
                (fun x : ℚ => x - 1/2) (⟨1, "FalsePos", 0, 1, 1/2, 0, 1/2⟩ : FPRec).a)) ∧
        (⟨1, "FalsePos", 0, 1, 1/2, 0, 1/2⟩ : FPRec).fx =
          (fun x : ℚ => x - 1/2) (⟨1, "FalsePos", 0, 1, 1/2, 0, 1/2⟩ : FPRec).root) :=
  ⟨by norm_num,
    (false_position_step_semantics (fun x : ℚ => x - 1/2) 0 1 (1 / 1000000) 50
        (by norm_num)
        [⟨1, "FalsePos", 0, 1, 1/2, 0, 1/2⟩, ⟨2, "FalsePos", 1/2, 1, 1/2, 0, 0⟩]
        (by decide)).1
      ⟨1, "FalsePos", 0, 1, 1/2, 0, 1/2⟩ (by decide)⟩

/-- The exception-aware Newton loop never returns `none`: the `1e-12`
guard runs before every division, so the divisor is never zero. -/
theorem newtonGoE_eq_some (func deriv : ℚ → ℚ) (tol : ℚ) (fuel : ℕ) :
    ∀ i x_curr,
      newtonGoE func deriv tol fuel i x_curr =
        some (newtonGo func deriv tol fuel i x_curr) := by
  induction fuel with
  | zero => intro i x; simp [newtonGoE, newtonGo]
  | succ fuel ih =>
    intro i x
    simp only [newtonGoE, newtonGo]
    by_cases hg : |deriv x| < guardEps
    · simp only [if_pos hg]
    · have hne : ¬ (deriv x = 0) := by
        intro h0
        apply hg
        rw [h0, abs_zero]
        norm_num [guardEps]
      simp only [if_neg hg, if_neg hne]
      by_cases he : |x - func x / deriv x - x| < tol
      · simp only [if_pos he]
      · simp only [if_neg he, ih (i + 1) (x - func x / deriv x)]

/-- The exception-aware secant loop never returns `none`: the `1e-12`
guard runs before every division. -/
theorem secantGoE_eq_some (func : ℚ → ℚ) (tol : ℚ) (fuel : ℕ) :
    ∀ i x_prev x_curr,
      secantGoE func tol fuel i x_prev x_curr =
        some (secantGo func tol fuel i x_prev x_curr) := by
  induction fuel with
  | zero => intro i xp xc; simp [secantGoE, secantGo]
  | succ fuel ih =>
    intro i xp xc
    simp only [secantGoE, secantGo]
    by_cases hg : |func xc - func xp| < guardEps
    · simp only [if_pos hg]
    · have hne : ¬ (func xc - func xp = 0) := by
        intro h0
        apply hg
        rw [h0, abs_zero]
        norm_num [guardEps]
      simp only [if_neg hg, if_neg hne]
      by_cases he : |xc - func xc * ((xc - xp) / (func xc - func xp)) - xc| < tol
      · simp only [if_pos he]
      · simp only [if_neg he,
          ih (i + 1) xc (xc - func xc * ((xc - xp) / (func xc - func xp)))]

/-- The exception-aware false-position loop never returns `none` when
started with at least one remaining iteration (or at least one finished
one) in a state where `func b ≠ 0` and `func a * func b ≤ 0`: the
divisor `func b - func a` can then never vanish, and the state
invariant is preserved by both bracket updates. -/
theorem falsePosGoE_eq_some (func : ℚ → ℚ) (tol : ℚ) (fuel : ℕ) :
    ∀ i a b c_old, func b ≠ 0 → func a * func b ≤ 0 → 1 ≤ i + fuel →
      falsePosGoE func tol fuel i a b c_old =
        some (falsePosGo func tol fuel i a b c_old) := by
  induction fuel with
  | zero =>
    intro i a b c_old hb hab hi
    have hi0 : ¬ (i = 0) := by omega
    simp [falsePosGoE, falsePosGo, hi0]
  | succ fuel ih =>
    intro i a b c_old hb hab _
    have hdiff : ¬ (func b - func a = 0) := by
      intro h0
      have hfa : func a = func b := (sub_eq_zero.mp h0).symm
      rw [hfa] at hab
      have hb0 : func b = 0 := by nlinarith
      exact hb hb0
    simp only [falsePosGoE, falsePosGo, if_neg hdiff]
    by_cases he : |b - func b * ((b - a) / (func b - func a)) - c_old| < tol
    · simp only [if_pos he]
    · simp only [if_neg he]
      by_cases hc : func a * func (b - func b * ((b - a) / (func b - func a))) < 0
      · have hcne : func (b - func b * ((b - a) / (func b - func a))) ≠ 0 := by
          intro h0
          rw [h0, mul_zero] at hc
          exact lt_irrefl 0 hc
        simp only [if_pos hc,
          ih (i + 1) a (b - func b * ((b - a) / (func b - func a)))
            (b - func b * ((b - a) / (func b - func a))) hcne hc.le (by omega)]
      · push_neg at hc
        have hnew : func (b - func b * ((b - a) / (func b - func a))) * func b ≤ 0 := by
          by_cases hfa : func a = 0
          · have hca : b - func b * ((b - a) / (func b - func a)) = a :=
              chordOf_eq_left func a b hfa hb
            rw [hca, hfa, zero_mul]
          · exact sign_step (func a) (func b) _ hb hab hc hfa
        simp only [if_neg (not_lt.mpr hc),
          ih (i + 1) (b - func b * ((b - a) / (func b - func a))) b
            (b - func b * ((b - a) / (func b - func a))) hb hnew (by omega)]

/-- Claim C5: for every total input function (and derivative), positive
tolerance and `max_iter ≥ 1`, none of the three routines raises: the
exception-aware mirrors return `some` of exactly the value computed by
the total embeddings — in particular the unguarded division by
`f(b) − f(a)` in `false_position` never divides by zero. -/
theorem core_never_raises (func deriv : ℚ → ℚ) (x0 x1 a b tol : ℚ)
    (max_iter : ℕ) (htol : 0 < tol) (hmi : 1 ≤ max_iter) :
    newton_raphsonE func deriv x0 tol max_iter =
      some (newton_raphson func deriv x0 tol max_iter) ∧
    secant_methodE func x0 x1 tol max_iter =
      some (secant_method func x0 x1 tol max_iter) ∧
    false_positionE func a b tol max_iter =
      some (false_position func a b tol max_iter) := by
  refine ⟨newtonGoE_eq_some func deriv tol max_iter 0 x0,
    secantGoE_eq_some func tol max_iter 0 x0 x1, ?_⟩
  by_cases h : 0 ≤ func a * func b
  · simp [false_positionE, false_position, h]
  · have hab : func a * func b < 0 := not_le.mp h
    have hb : func b ≠ 0 := by
      intro h0
      rw [h0, mul_zero] at hab
      exact lt_irrefl 0 hab
    simp only [false_positionE, false_position, if_neg h]
    rw [falsePosGoE_eq_some func tol max_iter 0 a b a hb hab.le (by omega)]

/-- Witness for C5 at a concrete function, bracket and tolerance. -/
theorem core_never_raises_witness :
    (0 < (1 / 1000000 : ℚ)) ∧ 1 ≤ 50 ∧
    (newton_raphsonE (fun x : ℚ => x - 1) (fun _ : ℚ => (1 : ℚ)) 0 (1 / 1000000) 50 =
      some (newton_raphson (fun x : ℚ => x - 1) (fun _ : ℚ => (1 : ℚ)) 0 (1 / 1000000) 50) ∧
    secant_methodE (fun x : ℚ => x - 1) 0 2 (1 / 1000000) 50 =
      some (secant_method (fun x : ℚ => x - 1) 0 2 (1 / 1000000) 50) ∧
    false_positionE (fun x : ℚ => x - 1) 0 2 (1 / 1000000) 50 =
      some (false_position (fun x : ℚ => x - 1) 0 2 (1 / 1000000) 50)) :=
  ⟨by norm_num, by norm_num,
    core_never_raises (fun x : ℚ => x - 1) (fun _ : ℚ => (1 : ℚ)) 0 2 0 2
      (1 / 1000000) 50 (by norm_num) (by norm_num)⟩
